import Mathlib

/-!
Verification of the imagedisplay repository (src/main.rs) against its
natural-language specification.

The source program is embedded shallowly:

* `Pos2`, `Color`, `Image`, `HilbertCurve` mirror the Rust structs
  (`Color` is the sdl2 RGB color restricted to the three channels the
  program uses; channel values are bytes, carried here as `Nat` — no
  arithmetic is ever performed on a channel, only moves).
* Rust loops become structural recursions carrying the mutated state
  (`newLoopAux`, `v2pLoop`, `p2vLoop`, `remapWrites`).
* Rust panics (failed slice bounds, `assert_eq!`, explicit `panic!`)
  become `Except AppError` results; the error constructor follows the
  spec's error vocabulary (`InvalidRange`, `InvalidDimensions`,
  `InternalFault` for the "total should never be less than len" panic).
* File I/O is abstracted away: `Image.parse` receives the byte list that
  `fs::read` would produce, `Image.save` returns the byte list that
  `fs::write` would persist.

Machine integers are `usize`/`u8` in the source; all values the program
computes stay far below 2^64 in the claims' scope, and no wrapping
arithmetic is exercised on the paths modelled here, so `Nat` is used
throughout.  (One divergence, outside every claim: `HilbertCurve::new(0)`
underflows `order -= 1` in a debug build; the `Nat` model truncates to 0.
No claim mentions size 0.)
-/

/-- Mirror of the source's `Pos2<usize>`. -/
structure Pos2 where
  x : Nat
  y : Nat
deriving DecidableEq, Repr

/-- Mirror of the sdl2 `Color` as the program uses it: three byte channels. -/
structure Color where
  r : Nat
  g : Nat
  b : Nat
deriving DecidableEq, Repr

/-- Error conditions, following the spec's error vocabulary (panics in the
source are modelled as explicit failure results, as §7/§9 of the spec
prescribes). -/
inductive AppError where
  | InvalidDimensions
  | InvalidRange
  | InternalFault
deriving DecidableEq, Repr

/-- Mirror of the source's `Image` struct. -/
structure Image where
  data : List Color
  width : Nat
  height : Nat
deriving DecidableEq, Repr

/-- Mirror of the source's `HilbertCurve` struct. -/
structure HilbertCurve where
  order : Nat
deriving DecidableEq, Repr

/-- The `while current > 0 { current /= 2; order += 1; }` loop of
`HilbertCurve::new`, returning the final `(current, order)` pair. -/
def newLoopAux (current order : Nat) : Nat × Nat :=
  if current > 0 then newLoopAux (current / 2) (order + 1) else (current, order)
termination_by current
decreasing_by omega

/-- `HilbertCurve::new` (src/main.rs:262-282): run the halving loop,
decrement `order`, and panic (`InvalidDimensions`) if the final `current`
is nonzero. -/
def HilbertCurve.new (size : Nat) : Except AppError HilbertCurve :=
  let r := newLoopAux size 0
  let order := r.2 - 1
  if r.1 ≠ 0 then .error .InvalidDimensions else .ok ⟨order⟩

/-- `HilbertCurve::rotate` (src/main.rs:284-298).  The Rust method takes
`&self` but never reads it, so it is embedded as a plain function. -/
def HilbertCurve.rotate (pos check : Pos2) (value : Nat) : Pos2 :=
  if check.y ≠ 0 then pos
  else
    let p : Pos2 := if check.x = 1 then ⟨value - 1 - pos.x, value - 1 - pos.y⟩ else pos
    ⟨p.y, p.x⟩

/-- One iteration of the `value_to_point` loop body (src/main.rs:322-335)
at bit index `k` (the Rust `s` before exponentiation). -/
def v2pStep (k value : Nat) (pos : Pos2) : Pos2 :=
  let s := 2 ^ k
  let rx := (value / 2) &&& 1
  let ry := (value ^^^ rx) &&& 1
  let p := HilbertCurve.rotate pos ⟨rx, ry⟩ s
  ⟨p.x + s * rx, p.y + s * ry⟩

/-- The `for s in 0..order` loop of `value_to_point`: `k` is the current
bit index, `steps` the number of iterations left, `value` and `pos` the
mutated loop state. -/
def v2pLoop : Nat → Nat → Nat → Pos2 → Pos2
  | _, 0, _, pos => pos
  | k, steps + 1, value, pos => v2pLoop (k + 1) steps (value / 4) (v2pStep k value pos)

/-- `HilbertCurve::value_to_point` (src/main.rs:318-338). -/
def HilbertCurve.value_to_point (c : HilbertCurve) (value : Nat) : Pos2 :=
  v2pLoop 0 c.order value ⟨0, 0⟩

/-- The `(0..order).rev()` loop of `point_to_value` (src/main.rs:305-315):
`n` is the fixed full size `2^order`, the second argument counts the
remaining iterations (current scale `2^(k-1)` at argument `k`), threading
the rotated `pos` and summing the contributions. -/
def p2vLoop (n : Nat) : Nat → Pos2 → Nat
  | 0, _ => 0
  | k + 1, pos =>
    let s := 2 ^ k
    let rx := if pos.x &&& s > 0 then 1 else 0
    let ry := if pos.y &&& s > 0 then 1 else 0
    s * s * ((3 * rx) ^^^ ry) + p2vLoop n k (HilbertCurve.rotate pos ⟨rx, ry⟩ n)

/-- `HilbertCurve::point_to_value` (src/main.rs:301-316). -/
def HilbertCurve.point_to_value (c : HilbertCurve) (pos : Pos2) : Nat :=
  p2vLoop (2 ^ c.order) c.order pos

/-- `Image::to_index_assoc` (src/main.rs:214-217). -/
def Image.to_index_assoc (width : Nat) (pos : Pos2) : Nat :=
  pos.y * width + pos.x

/-- `Image::index_to_pos_assoc` (src/main.rs:219-225). -/
def Image.index_to_pos_assoc (width : Nat) (index : Nat) : Pos2 :=
  ⟨index % width, index / width⟩

/-- The write loop of `Image::remap_positions` (src/main.rs:199-204):
perform the writes `output[f(i)] = data[i]` for `i = 0, …, n-1` (write
`n-1` last) on the buffer `out`.  The `⟨0,0,0⟩` default of `getD` is never
read at the call sites proved about, where `i < data.length` always. -/
def remapWrites (data : List Color) (f : Nat → Nat) : Nat → List Color → List Color
  | 0, out => out
  | n + 1, out => (remapWrites data f n out).set (f n) (data.getD n ⟨0, 0, 0⟩)

/-- `Image::remap_positions` (src/main.rs:195-207): clone the buffer,
write every source value at its remapped position, replace the data. -/
def Image.remap_positions (img : Image) (f : Nat → Nat) : Image :=
  { img with data := remapWrites img.data f img.data.length img.data }

/-- `Image::unhilbertify` (src/main.rs:165-178).  The `assert_eq!` panic
on a non-square grid is the spec's `InvalidDimensions` failure; the error
propagated out of `HilbertCurve::new` is likewise surfaced. -/
def Image.unhilbertify (img : Image) : Except AppError Image :=
  if img.width ≠ img.height then .error .InvalidDimensions
  else
    match HilbertCurve.new img.width with
    | .error e => .error e
    | .ok curve =>
        .ok (img.remap_positions fun index =>
          Image.to_index_assoc img.width (curve.value_to_point index))

/-- `Image::hilbertify` (src/main.rs:180-193). -/
def Image.hilbertify (img : Image) : Except AppError Image :=
  if img.width ≠ img.height then .error .InvalidDimensions
  else
    match HilbertCurve.new img.width with
    | .error e => .error e
    | .ok curve =>
        .ok (img.remap_positions fun index =>
          curve.point_to_value (Image.index_to_pos_assoc img.width index))

/-- `slice::chunks(3)` as used by `Image::parse`: consecutive chunks of
three bytes, the last one possibly shorter, none empty. -/
def chunks3 : List Nat → List (List Nat)
  | [] => []
  | [a] => [[a]]
  | [a, b] => [[a, b]]
  | a :: b :: c :: rest => [a, b, c] :: chunks3 rest

/-- The chunk-to-color conversion of `Image::parse` (src/main.rs:116-123):
channel 0 from the chunk (the Rust `chunk[0]` index cannot fail because
`chunks3` never yields an empty chunk; the `getD` default 0 is thus never
read), channels 1 and 2 fall back to the fill color. -/
def chunkToColor (c : Color) (chunk : List Nat) : Color :=
  ⟨chunk.getD 0 0, chunk.getD 1 c.g, chunk.getD 2 c.b⟩

/-- `Image::parse` (src/main.rs:104-153), with the file read abstracted
to the byte list `values`.  The slice `values[trim_start..len-trim_end]`
panics exactly when `trim_end > len` (underflow of `len - trim_end`) or
`trim_start > len - trim_end`; that is the spec's `InvalidRange`.  The
`"total should never be less than len"` panic is `InternalFault`.
(A zero `width` makes the Rust `l / width` panic; the claims all take
`width > 0`, where the model agrees with the source.) -/
def Image.parse (values : List Nat) (width : Nat) (c : Color)
    (trim_start trim_end : Nat) : Except AppError Image :=
  if trim_end > values.length ∨ trim_start > values.length - trim_end then
    .error .InvalidRange
  else
    let data := (chunks3 ((values.drop trim_start).take
      (values.length - trim_end - trim_start))).map (chunkToColor c)
    let height := data.length / width + (if data.length % width ≠ 0 then 1 else 0)
    let total := width * height
    if total < data.length then .error .InternalFault
    else .ok ⟨data ++ List.replicate (total - data.length) c, width, height⟩

/-- `Image::save` (src/main.rs:155-163), returning the byte list handed
to `fs::write`: each color's three channels in order. -/
def Image.save (img : Image) : List Nat :=
  (img.data.map fun c => [c.r, c.g, c.b]).flatten

/-- `resave` (src/main.rs:341-348): hilbertify, then save; the returned
list is the byte content of the written output file. -/
def resave (img : Image) : Except AppError (List Nat) :=
  match img.hilbertify with
  | .error e => .error e
  | .ok img2 => .ok img2.save

/-! ## Lemmas about `HilbertCurve.new` -/

theorem newLoopAux_fst_eq_zero (c : Nat) : ∀ o, (newLoopAux c o).1 = 0 := by
  induction c using Nat.strong_induction_on with
  | _ c ih =>
    intro o
    rw [newLoopAux]
    by_cases h : c > 0
    · rw [if_pos h]
      exact ih (c / 2) (by omega) (o + 1)
    · rw [if_neg h]
      omega

theorem newLoopAux_snd (c : Nat) : 1 ≤ c → ∀ o, (newLoopAux c o).2 = o + Nat.log2 c + 1 := by
  induction c using Nat.strong_induction_on with
  | _ c ih =>
    intro hc o
    rw [newLoopAux, if_pos (by omega : c > 0)]
    by_cases h2 : c ≥ 2
    · rw [ih (c / 2) (by omega) (by omega) (o + 1)]
      conv_rhs => rw [Nat.log2]
      rw [if_pos h2]
      omega
    · have hc1 : c = 1 := by omega
      subst hc1
      rw [newLoopAux]
      norm_num [Nat.log2]

theorem hilbertCurve_new_eq_ok (size : Nat) (h : 1 ≤ size) :
    HilbertCurve.new size = .ok ⟨Nat.log2 size⟩ := by
  unfold HilbertCurve.new
  simp only [newLoopAux_fst_eq_zero, ne_eq, not_true_eq_false, if_false,
    newLoopAux_snd size h 0]
  have hlog : 0 + Nat.log2 size + 1 - 1 = Nat.log2 size := by omega
  rw [hlog]

theorem log2_two_pow (o : Nat) : Nat.log2 (2 ^ o) = o := by
  induction o with
  | zero => rw [Nat.log2]; norm_num
  | succ o ih =>
    rw [Nat.log2, if_pos (by
      calc (2:Nat) = 2 ^ 1 := by norm_num
      _ ≤ 2 ^ (o + 1) := Nat.pow_le_pow_right (by norm_num) (by omega))]
    rw [pow_succ, Nat.mul_div_cancel _ (by norm_num)]
    omega

theorem hilbertCurve_new_two_pow (o : Nat) :
    HilbertCurve.new (2 ^ o) = .ok ⟨o⟩ := by
  rw [hilbertCurve_new_eq_ok (2 ^ o) (Nat.one_le_two_pow), log2_two_pow]

/-- C10: for every `size ≥ 1` (power of two or not) the curve-indexer
constructor returns successfully with `order = ⌊log2 size⌋`; the failure
branch guarding the power-of-two check is unreachable, because the
halving loop terminates only when the checked variable is zero. -/
theorem hilbertCurve_new_never_fails (size : Nat) (h : 1 ≤ size) :
    HilbertCurve.new size = .ok ⟨Nat.log2 size⟩ :=
  hilbertCurve_new_eq_ok size h

theorem hilbertCurve_new_never_fails_witness :
    1 ≤ 6 ∧ HilbertCurve.new 6 = .ok ⟨Nat.log2 6⟩ :=
  ⟨by norm_num, hilbertCurve_new_never_fails 6 (by norm_num)⟩

/-- C3 (code bug evidence): constructing the curve indexer with
`size = 6`, which is not a power of two, does **not** fail — it returns
`order = 2`, because the `current != 0` check after the halving loop can
never fire (the loop exits only when `current == 0`), contradicting the
intent stated by the source's own panic message "size must be a power
of 2" and by the spec. -/
theorem hilbertCurve_new_six_succeeds : HilbertCurve.new 6 = .ok ⟨2⟩ := by
  simp [HilbertCurve.new, newLoopAux]

/-- C4: for every input byte buffer and trim counts with
`trim_start + trim_end` greater than the buffer length, `Image::parse`
fails with `InvalidRange` (an explicit failure result). -/
theorem parse_trim_out_of_range (values : List Nat) (width : Nat) (c : Color)
    (trim_start trim_end : Nat) (h : trim_start + trim_end > values.length) :
    Image.parse values width c trim_start trim_end = .error .InvalidRange := by
  unfold Image.parse
  rw [if_pos (by omega)]

theorem parse_trim_out_of_range_witness :
    2 + 2 > [1, 2, 3].length ∧
      Image.parse [1, 2, 3] 4 ⟨0, 0, 0⟩ 2 2 = .error .InvalidRange :=
  ⟨by norm_num, parse_trim_out_of_range [1, 2, 3] 4 ⟨0, 0, 0⟩ 2 2 (by norm_num)⟩

/-- C8: requesting a curve transform (`hilbertify` or `unhilbertify`) on
a non-square grid fails with `InvalidDimensions` rather than silently
skipping the transform. -/
theorem transform_nonsquare_fails (img : Image) (h : img.width ≠ img.height) :
    img.hilbertify = .error .InvalidDimensions ∧
      img.unhilbertify = .error .InvalidDimensions := by
  constructor
  · unfold Image.hilbertify
    rw [if_pos h]
  · unfold Image.unhilbertify
    rw [if_pos h]

theorem transform_nonsquare_fails_witness :
    (Image.mk (List.replicate 6 ⟨0, 0, 0⟩) 2 3).width ≠
        (Image.mk (List.replicate 6 ⟨0, 0, 0⟩) 2 3).height ∧
      (Image.mk (List.replicate 6 ⟨0, 0, 0⟩) 2 3).hilbertify = .error .InvalidDimensions ∧
      (Image.mk (List.replicate 6 ⟨0, 0, 0⟩) 2 3).unhilbertify = .error .InvalidDimensions :=
  ⟨by norm_num, transform_nonsquare_fails (Image.mk (List.replicate 6 ⟨0, 0, 0⟩) 2 3) (by norm_num)⟩

/-! ## Parse sizing (C5) -/

theorem ceil_div_eq (l w : Nat) (hw : 0 < w) :
    l / w + (if l % w ≠ 0 then 1 else 0) = (l + w - 1) / w := by
  have hqr := Nat.div_add_mod l w
  have hr : l % w < w := Nat.mod_lt _ hw
  by_cases h0 : l % w = 0
  · have h1 : l + w - 1 = w - 1 + w * (l / w) := by omega
    have h2 : (w - 1 + w * (l / w)) / w = (w - 1) / w + l / w :=
      Nat.add_mul_div_left _ _ hw
    have h3 : (w - 1) / w = 0 := Nat.div_eq_of_lt (by omega)
    rw [if_neg (by omega), h1, h2, h3]
    omega
  · have h1 : l + w - 1 = (l % w + w - 1) + w * (l / w) := by omega
    have h2 : (l % w + w - 1 + w * (l / w)) / w = (l % w + w - 1) / w + l / w :=
      Nat.add_mul_div_left _ _ hw
    have h3 : (l % w + w - 1) / w = 1 :=
      Nat.div_eq_of_lt_le (by omega) (by omega)
    rw [if_pos (by omega), h1, h2, h3]
    omega

theorem le_width_mul_height (l w : Nat) (hw : 0 < w) :
    l ≤ w * (l / w + if l % w ≠ 0 then 1 else 0) := by
  have hqr := Nat.div_add_mod l w
  have hr : l % w < w := Nat.mod_lt _ hw
  by_cases h0 : l % w = 0
  · rw [if_neg (by omega), Nat.add_zero]
    omega
  · rw [if_pos (by omega)]
    have h1 : w * (l / w + 1) = w * (l / w) + w := by ring
    omega

/-- C5: for every positive `width` and grouped pixel count, parsing
computes `height = ⌈grouped / width⌉` and pads the color sequence with
the fill color to exactly `width * height` entries. -/
theorem parse_ceiling_sizing (values : List Nat) (width : Nat) (c : Color)
    (trim_start trim_end : Nat) (hw : 0 < width)
    (ht : trim_start + trim_end ≤ values.length) :
    ∃ img, Image.parse values width c trim_start trim_end = .ok img ∧
      img.height =
        ((chunks3 ((values.drop trim_start).take
          (values.length - trim_end - trim_start))).length + width - 1) / width ∧
      img.data.length = width * img.height ∧
      img.data =
        (chunks3 ((values.drop trim_start).take
            (values.length - trim_end - trim_start))).map (chunkToColor c) ++
          List.replicate (width * img.height -
            (chunks3 ((values.drop trim_start).take
              (values.length - trim_end - trim_start))).length) c := by
  unfold Image.parse
  rw [if_neg (by omega)]
  set grouped := (chunks3 ((values.drop trim_start).take
    (values.length - trim_end - trim_start))).map (chunkToColor c) with hg
  have hlen : grouped.length = (chunks3 ((values.drop trim_start).take
    (values.length - trim_end - trim_start))).length := by
    rw [hg, List.length_map]
  have hle := le_width_mul_height grouped.length width hw
  rw [if_neg (by omega)]
  refine ⟨_, rfl, ?_, ?_, ?_⟩
  · simp only [← hlen]
    exact ceil_div_eq grouped.length width hw
  · simp only [List.length_append, List.length_replicate]
    omega
  · rw [hlen]

theorem parse_ceiling_sizing_witness :
    0 < 4 ∧ 0 + 0 ≤ (List.replicate 28 0).length ∧
      (∃ img, Image.parse (List.replicate 28 0) 4 ⟨0, 0, 0⟩ 0 0 = .ok img ∧
        img.height =
          ((chunks3 (((List.replicate 28 0).drop 0).take
            ((List.replicate 28 0).length - 0 - 0))).length + 4 - 1) / 4 ∧
        img.data.length = 4 * img.height ∧
        img.data =
          (chunks3 (((List.replicate 28 0).drop 0).take
              ((List.replicate 28 0).length - 0 - 0))).map (chunkToColor ⟨0, 0, 0⟩) ++
            List.replicate (4 * img.height -
              (chunks3 (((List.replicate 28 0).drop 0).take
                ((List.replicate 28 0).length - 0 - 0))).length) ⟨0, 0, 0⟩) ∧
      (chunks3 (((List.replicate 28 0).drop 0).take
        ((List.replicate 28 0).length - 0 - 0))).length = 10 ∧
      Image.parse (List.replicate 28 0) 4 ⟨0, 0, 0⟩ 0 0 =
        .ok ⟨List.replicate 12 ⟨0, 0, 0⟩, 4, 3⟩ :=
  ⟨by norm_num, by decide,
    parse_ceiling_sizing (List.replicate 28 0) 4 ⟨0, 0, 0⟩ 0 0 (by norm_num) (by decide),
    by decide, by rfl⟩

/-! ## Short final chunk (C6) -/

theorem chunks3_ne_nil (l : List Nat) (h : l ≠ []) : chunks3 l ≠ [] := by
  match l with
  | [a] => simp [chunks3]
  | [a, b] => simp [chunks3]
  | a :: b :: c :: rest => simp [chunks3]

theorem getLast?_cons_of_ne_nil {α : Type} (x : α) (l : List α) (h : l ≠ []) :
    (x :: l).getLast? = l.getLast? := by
  cases l with
  | nil => exact absurd rfl h
  | cons y ys => rfl

theorem chunks3_short_final_aux (fuel : Nat) :
    ∀ (l : List Nat), l.length ≤ fuel → l.length % 3 = 0 → ∀ (c : Color) (b0 : Nat),
      ((chunks3 (l ++ [b0])).map (chunkToColor c)).getLast? = some ⟨b0, c.g, c.b⟩ := by
  induction fuel with
  | zero =>
    intro l hl h3 c b0
    have : l = [] := List.eq_nil_of_length_eq_zero (by omega)
    subst this
    rfl
  | succ fuel ih =>
    intro l hl h3 c b0
    match l with
    | [] => rfl
    | [a] => simp at h3
    | [a, b] => simp at h3
    | a :: b :: d :: rest =>
      have hlen : rest.length % 3 = 0 := by
        simp [List.length_cons] at h3
        omega
      have hne : chunks3 (rest ++ [b0]) ≠ [] :=
        chunks3_ne_nil _ (by simp)
      have hstep : chunks3 ((a :: b :: d :: rest) ++ [b0]) =
          [a, b, d] :: chunks3 (rest ++ [b0]) := rfl
      rw [hstep, List.map_cons,
        getLast?_cons_of_ne_nil _ _ (by simp [hne])]
      exact ih rest (by simp at hl ⊢; omega) hlen c b0

/-- C6: when the trimmed byte stream is grouped into chunks of 3, a final
chunk of a single byte `b0` takes channel 0 from the chunk and falls back
to the fill color for the missing channels, yielding `(b0, fill.g, fill.b)`. -/
theorem chunks3_short_final (l : List Nat) (c : Color) (b0 : Nat)
    (h3 : l.length % 3 = 0) :
    ((chunks3 (l ++ [b0])).map (chunkToColor c)).getLast? = some ⟨b0, c.g, c.b⟩ :=
  chunks3_short_final_aux l.length l (Nat.le_refl _) h3 c b0

theorem chunks3_short_final_witness :
    [1, 2, 3].length % 3 = 0 ∧
      ((chunks3 ([1, 2, 3] ++ [7])).map (chunkToColor ⟨10, 20, 30⟩)).getLast? =
        some ⟨7, 20, 30⟩ :=
  ⟨by norm_num, chunks3_short_final [1, 2, 3] ⟨10, 20, 30⟩ 7 (by norm_num)⟩


/-! ## Bit-level bridge lemmas for the Hilbert transforms -/

theorem and_two_pow_pos (a k : Nat) : 0 < a &&& 2 ^ k ↔ a / 2 ^ k % 2 = 1 := by
  rw [Nat.and_two_pow]
  have ht := Nat.testBit_to_div_mod (i := k) (x := a)
  cases hb : a.testBit k
  · rw [hb] at ht
    have hne : ¬ a / 2 ^ k % 2 = 1 := by
      intro hc
      rw [hc] at ht
      simp at ht
    simp [hne]
  · rw [hb] at ht
    have hc : a / 2 ^ k % 2 = 1 := by
      by_contra hc
      rw [eq_comm, decide_eq_true_iff] at ht
      exact hc ht
    simp [hc, Nat.two_pow_pos]

/-- The `value_to_point` loop body with the bit operations rewritten into
division/remainder arithmetic (`rx = value/2 % 2`, `ry = value%2 ^^^ rx`). -/
theorem v2pStep_arith (k value : Nat) (pos : Pos2) :
    v2pStep k value pos =
      ⟨(HilbertCurve.rotate pos ⟨value / 2 % 2, value % 2 ^^^ value / 2 % 2⟩ (2 ^ k)).x
          + 2 ^ k * (value / 2 % 2),
        (HilbertCurve.rotate pos ⟨value / 2 % 2, value % 2 ^^^ value / 2 % 2⟩ (2 ^ k)).y
          + 2 ^ k * (value % 2 ^^^ value / 2 % 2)⟩ := by
  have hxor : ∀ a b : Nat, (a ^^^ b) % 2 = a % 2 ^^^ b % 2 := by
    intro a b
    rw [← Nat.and_one_is_mod, ← Nat.and_one_is_mod, ← Nat.and_one_is_mod,
      Nat.and_xor_distrib_right]
  have hmm : value / 2 % 2 % 2 = value / 2 % 2 := by omega
  simp only [v2pStep, Nat.and_one_is_mod, hxor, hmm]

theorem v2pLoop_last (steps : Nat) : ∀ (k value : Nat) (pos : Pos2),
    v2pLoop k (steps + 1) value pos =
      v2pStep (k + steps) (value / 4 ^ steps) (v2pLoop k steps value pos) := by
  induction steps with
  | zero =>
    intro k value pos
    simp [v2pLoop]
  | succ n ih =>
    intro k value pos
    have hdiv : value / 4 / 4 ^ n = value / 4 ^ (n + 1) := by
      rw [Nat.div_div_eq_div_mul]
      congr 1
      rw [pow_succ]
      ring
    have harith : k + 1 + n = k + (n + 1) := by omega
    calc v2pLoop k (n + 1 + 1) value pos
        = v2pLoop (k + 1) (n + 1) (value / 4) (v2pStep k value pos) := rfl
      _ = v2pStep (k + 1 + n) (value / 4 / 4 ^ n)
            (v2pLoop (k + 1) n (value / 4) (v2pStep k value pos)) := ih _ _ _
      _ = v2pStep (k + (n + 1)) (value / 4 ^ (n + 1))
            (v2pLoop k (n + 1) value pos) := by rw [hdiv, harith]; rfl

theorem v2pStep_mod (k value : Nat) (pos : Pos2) :
    v2pStep k value pos = v2pStep k (value % 4) pos := by
  rw [v2pStep_arith, v2pStep_arith]
  have h1 : value % 4 / 2 % 2 = value / 2 % 2 := by omega
  have h2 : value % 4 % 2 = value % 2 := by omega
  rw [h1, h2]

theorem v2pLoop_mod (steps : Nat) : ∀ (k value : Nat) (pos : Pos2),
    v2pLoop k steps value pos = v2pLoop k steps (value % 4 ^ steps) pos := by
  induction steps with
  | zero => intro k value pos; rfl
  | succ n ih =>
    intro k value pos
    show v2pLoop (k + 1) n (value / 4) (v2pStep k value pos) =
      v2pLoop (k + 1) n (value % 4 ^ (n + 1) / 4) (v2pStep k (value % 4 ^ (n + 1)) pos)
    have h4 : (4:Nat) ∣ 4 ^ (n + 1) := dvd_pow_self 4 (by omega)
    have hstep : v2pStep k value pos = v2pStep k (value % 4 ^ (n + 1)) pos := by
      rw [v2pStep_mod k value pos, v2pStep_mod k (value % 4 ^ (n + 1)) pos,
        Nat.mod_mod_of_dvd value h4]
    have hdiv : value % 4 ^ (n + 1) / 4 = value / 4 % 4 ^ n := by
      rw [pow_succ', Nat.mod_mul_right_div_self]
    rw [hstep, hdiv, ← ih]

theorem rotate_id (pos check : Pos2) (m : Nat) (h : check.y ≠ 0) :
    HilbertCurve.rotate pos check m = pos := by
  simp [HilbertCurve.rotate, h]

theorem rotate_swap (pos check : Pos2) (m : Nat) (hy : check.y = 0) (hx : check.x ≠ 1) :
    HilbertCurve.rotate pos check m = ⟨pos.y, pos.x⟩ := by
  simp [HilbertCurve.rotate, hy, hx]

theorem rotate_reflect (pos check : Pos2) (m : Nat) (hy : check.y = 0) (hx : check.x = 1) :
    HilbertCurve.rotate pos check m = ⟨m - 1 - pos.y, m - 1 - pos.x⟩ := by
  simp [HilbertCurve.rotate, hy, hx]

theorem rotate_lt (pos check : Pos2) (m : Nat) (hx : pos.x < m) (hy : pos.y < m) :
    (HilbertCurve.rotate pos check m).x < m ∧ (HilbertCurve.rotate pos check m).y < m := by
  by_cases hcy : check.y = 0
  · by_cases hcx : check.x = 1
    · rw [rotate_reflect pos check m hcy hcx]
      constructor <;> (show _ - 1 - _ < m; omega)
    · rw [rotate_swap pos check m hcy hcx]
      exact ⟨hy, hx⟩
  · rw [rotate_id pos check m hcy]
    exact ⟨hx, hy⟩

theorem v2pStep_lt (k value : Nat) (pos : Pos2) (hx : pos.x < 2 ^ k)
    (hy : pos.y < 2 ^ k) :
    (v2pStep k value pos).x < 2 ^ (k + 1) ∧ (v2pStep k value pos).y < 2 ^ (k + 1) := by
  rw [v2pStep_arith]
  have hrx : value / 2 % 2 ≤ 1 := by omega
  have hry : value % 2 ^^^ value / 2 % 2 ≤ 1 := by
    rcases (by omega : value % 2 = 0 ∨ value % 2 = 1) with h1 | h1 <;>
      rcases (by omega : value / 2 % 2 = 0 ∨ value / 2 % 2 = 1) with h2 | h2 <;>
      rw [h1, h2] <;> decide
  obtain ⟨h1, h2⟩ := rotate_lt pos ⟨value / 2 % 2, value % 2 ^^^ value / 2 % 2⟩ (2 ^ k) hx hy
  have hb1 : 2 ^ k * (value / 2 % 2) ≤ 2 ^ k := by
    calc 2 ^ k * (value / 2 % 2) ≤ 2 ^ k * 1 := Nat.mul_le_mul_left _ hrx
      _ = 2 ^ k := Nat.mul_one _
  have hb2 : 2 ^ k * (value % 2 ^^^ value / 2 % 2) ≤ 2 ^ k := by
    calc 2 ^ k * (value % 2 ^^^ value / 2 % 2) ≤ 2 ^ k * 1 := Nat.mul_le_mul_left _ hry
      _ = 2 ^ k := Nat.mul_one _
  have hp : 2 ^ (k + 1) = 2 * 2 ^ k := by rw [pow_succ]; ring
  constructor <;> (show _ + _ < 2 ^ (k + 1); omega)

theorem v2pLoop_lt (steps : Nat) : ∀ (k value : Nat) (pos : Pos2),
    pos.x < 2 ^ k → pos.y < 2 ^ k →
    (v2pLoop k steps value pos).x < 2 ^ (k + steps) ∧
      (v2pLoop k steps value pos).y < 2 ^ (k + steps) := by
  induction steps with
  | zero => intro k value pos hx hy; exact ⟨hx, hy⟩
  | succ n ih =>
    intro k value pos hx hy
    have hstep := v2pStep_lt k value pos hx hy
    have hrec := ih (k + 1) (value / 4) (v2pStep k value pos) hstep.1 hstep.2
    have harith : k + 1 + n = k + (n + 1) := by omega
    rw [harith] at hrec
    exact hrec

/-- The branch tests of `point_to_value` expressed as the bit
`pos / 2^k mod 2`. -/
theorem bitD (a k : Nat) : (if 0 < a &&& 2 ^ k then 1 else 0) = a / 2 ^ k % 2 := by
  by_cases h : 0 < a &&& 2 ^ k
  · rw [if_pos h, (and_two_pow_pos a k).mp h]
  · rw [if_neg h]
    have hne : a / 2 ^ k % 2 ≠ 1 := fun hc => h ((and_two_pow_pos a k).mpr hc)
    generalize a / 2 ^ k = b at hne ⊢
    omega

theorem p2vLoop_succ (n k : Nat) (pos : Pos2) :
    p2vLoop n (k + 1) pos =
      2 ^ k * 2 ^ k *
          ((3 * (if pos.x &&& 2 ^ k > 0 then 1 else 0)) ^^^
            (if pos.y &&& 2 ^ k > 0 then 1 else 0)) +
        p2vLoop n k (HilbertCurve.rotate pos
          ⟨if pos.x &&& 2 ^ k > 0 then 1 else 0,
            if pos.y &&& 2 ^ k > 0 then 1 else 0⟩ n) := rfl

theorem p2vLoop_lt (k : Nat) : ∀ (n : Nat) (pos : Pos2), p2vLoop n k pos < 4 ^ k := by
  induction k with
  | zero =>
    intro n pos
    show (0:Nat) < 4 ^ 0
    norm_num
  | succ k ih =>
    intro n pos
    rw [p2vLoop_succ]
    have hc : ((3 * (if pos.x &&& 2 ^ k > 0 then 1 else 0)) ^^^
        (if pos.y &&& 2 ^ k > 0 then 1 else 0)) ≤ 3 := by
      by_cases h1 : pos.x &&& 2 ^ k > 0 <;> by_cases h2 : pos.y &&& 2 ^ k > 0 <;>
        simp [h1, h2]
    have h44 : (4:Nat) ^ k = 2 ^ k * 2 ^ k := by
      rw [show (4:Nat) = 2 * 2 from rfl, mul_pow]
    have hmul : 2 ^ k * 2 ^ k *
        ((3 * (if pos.x &&& 2 ^ k > 0 then 1 else 0)) ^^^
          (if pos.y &&& 2 ^ k > 0 then 1 else 0)) ≤ 2 ^ k * 2 ^ k * 3 :=
      Nat.mul_le_mul_left _ hc
    have hrec := ih n (HilbertCurve.rotate pos
      ⟨if pos.x &&& 2 ^ k > 0 then 1 else 0,
        if pos.y &&& 2 ^ k > 0 then 1 else 0⟩ n)
    have h4s : (4:Nat) ^ (k + 1) = 4 ^ k * 4 := by rw [pow_succ]
    omega

theorem sub_one_sub_mod (a n y : Nat) (ha : 0 < a) (hd : a ∣ n) (hy : y < n) :
    (n - 1 - y) % a = a - 1 - y % a := by
  obtain ⟨m, hm⟩ := hd
  subst hm
  have hq := Nat.div_add_mod y a
  have hr : y % a < a := Nat.mod_lt _ ha
  have hqm : y / a < m := by
    by_contra hcon
    push_neg at hcon
    have := Nat.mul_le_mul_left a hcon
    omega
  have e1 : a * (m - y / a - 1) = a * m - a * (y / a) - a := by
    rw [show m - y / a - 1 = m - (y / a) - 1 from rfl, Nat.mul_sub, Nat.mul_sub, Nat.mul_one]
  have e2 : a * (y / a + 1) = a * (y / a) + a := by ring
  have e3 : a * (y / a + 1) ≤ a * m := Nat.mul_le_mul_left a hqm
  have key : a * m - 1 - y = a * (m - y / a - 1) + (a - 1 - y % a) := by omega
  rw [key, Nat.mul_add_mod, Nat.mod_eq_of_lt (by omega)]

/-- The inverse-direction loop only looks at the low `k` bits of the
position (the reflections at different grid sizes `n₁`, `n₂` agree modulo
`2^k` as long as both sizes are multiples of `2^k`). -/
theorem p2vLoop_congr (k : Nat) : ∀ (n₁ n₂ : Nat) (pos₁ pos₂ : Pos2),
    2 ^ k ∣ n₁ → 2 ^ k ∣ n₂ →
    pos₁.x < n₁ → pos₁.y < n₁ → pos₂.x < n₂ → pos₂.y < n₂ →
    pos₁.x % 2 ^ k = pos₂.x % 2 ^ k → pos₁.y % 2 ^ k = pos₂.y % 2 ^ k →
    p2vLoop n₁ k pos₁ = p2vLoop n₂ k pos₂ := by
  induction k with
  | zero => intros; rfl
  | succ k ih =>
    intro n₁ n₂ pos₁ pos₂ hd₁ hd₂ hx₁ hy₁ hx₂ hy₂ hmx hmy
    have hksucc : (2:Nat) ^ k ∣ 2 ^ (k + 1) := pow_dvd_pow 2 (Nat.le_succ k)
    have hdown : ∀ a b : Nat, a % 2 ^ (k + 1) = b % 2 ^ (k + 1) →
        a % 2 ^ k = b % 2 ^ k := by
      intro a b h
      rw [← Nat.mod_mod_of_dvd a hksucc, ← Nat.mod_mod_of_dvd b hksucc, h]
    have hbit : ∀ a b : Nat, a % 2 ^ (k + 1) = b % 2 ^ (k + 1) →
        a / 2 ^ k % 2 = b / 2 ^ k % 2 := by
      intro a b h
      have e : ∀ c : Nat, c / 2 ^ k % 2 = c % 2 ^ (k + 1) / 2 ^ k := by
        intro c
        rw [pow_succ, Nat.mod_mul_right_div_self]
      rw [e, e, h]
    have hn₁pos : 0 < n₁ := by omega
    have hn₂pos : 0 < n₂ := by omega
    have hdk₁ : (2:Nat) ^ k ∣ n₁ := dvd_trans hksucc hd₁
    have hdk₂ : (2:Nat) ^ k ∣ n₂ := dvd_trans hksucc hd₂
    rw [p2vLoop_succ, p2vLoop_succ, bitD, bitD, bitD, bitD,
      hbit _ _ hmx, hbit _ _ hmy]
    congr 1
    rcases (by generalize pos₂.y / 2 ^ k = b; omega :
        pos₂.y / 2 ^ k % 2 = 0 ∨ pos₂.y / 2 ^ k % 2 = 1) with hby | hby <;>
      rw [hby]
    · rcases (by generalize pos₂.x / 2 ^ k = b; omega :
          pos₂.x / 2 ^ k % 2 = 0 ∨ pos₂.x / 2 ^ k % 2 = 1) with hbx | hbx <;>
        rw [hbx]
      · rw [rotate_swap pos₁ ⟨0, 0⟩ n₁ rfl (by norm_num),
          rotate_swap pos₂ ⟨0, 0⟩ n₂ rfl (by norm_num)]
        exact ih n₁ n₂ ⟨pos₁.y, pos₁.x⟩ ⟨pos₂.y, pos₂.x⟩ hdk₁ hdk₂
          hy₁ hx₁ hy₂ hx₂ (hdown _ _ hmy) (hdown _ _ hmx)
      · rw [rotate_reflect pos₁ ⟨1, 0⟩ n₁ rfl rfl,
          rotate_reflect pos₂ ⟨1, 0⟩ n₂ rfl rfl]
        refine ih n₁ n₂ ⟨n₁ - 1 - pos₁.y, n₁ - 1 - pos₁.x⟩
          ⟨n₂ - 1 - pos₂.y, n₂ - 1 - pos₂.x⟩ hdk₁ hdk₂
          (by show n₁ - 1 - pos₁.y < n₁; omega)
          (by show n₁ - 1 - pos₁.x < n₁; omega)
          (by show n₂ - 1 - pos₂.y < n₂; omega)
          (by show n₂ - 1 - pos₂.x < n₂; omega) ?_ ?_
        · show (n₁ - 1 - pos₁.y) % 2 ^ k = (n₂ - 1 - pos₂.y) % 2 ^ k
          rw [sub_one_sub_mod (2 ^ k) n₁ pos₁.y (Nat.two_pow_pos k) hdk₁ hy₁,
            sub_one_sub_mod (2 ^ k) n₂ pos₂.y (Nat.two_pow_pos k) hdk₂ hy₂,
            hdown _ _ hmy]
        · show (n₁ - 1 - pos₁.x) % 2 ^ k = (n₂ - 1 - pos₂.x) % 2 ^ k
          rw [sub_one_sub_mod (2 ^ k) n₁ pos₁.x (Nat.two_pow_pos k) hdk₁ hx₁,
            sub_one_sub_mod (2 ^ k) n₂ pos₂.x (Nat.two_pow_pos k) hdk₂ hx₂,
            hdown _ _ hmx]
    · rw [rotate_id pos₁ ⟨pos₂.x / 2 ^ k % 2, 1⟩ n₁ (by norm_num),
        rotate_id pos₂ ⟨pos₂.x / 2 ^ k % 2, 1⟩ n₂ (by norm_num)]
      exact ih n₁ n₂ pos₁ pos₂ hdk₁ hdk₂ hx₁ hy₁ hx₂ hy₂
        (hdown _ _ hmx) (hdown _ _ hmy)

/-- One level of the round trip: pushing a two-bit digit `w` through the
final `value_to_point` step and then through the first `point_to_value`
step recovers `4^order * w` plus the inner transform. -/
theorem roundtrip_step (order : Nat) (p : Pos2) (w : Nat)
    (hx : p.x < 2 ^ order) (hy : p.y < 2 ^ order) (hw : w < 4) :
    p2vLoop (2 ^ (order + 1)) (order + 1) (v2pStep order w p) =
      4 ^ order * w + p2vLoop (2 ^ order) order p := by
  have hN : 0 < 2 ^ order := Nat.two_pow_pos order
  have h2N : (2:Nat) ^ (order + 1) = 2 * 2 ^ order := by rw [pow_succ]; ring
  have h44 : (4:Nat) ^ order = 2 ^ order * 2 ^ order := by
    rw [show (4:Nat) = 2 * 2 from rfl, mul_pow]
  have hdvd2 : (2:Nat) ^ order ∣ 2 * 2 ^ order := dvd_mul_left _ _
  have hdvd1 : (2:Nat) ^ order ∣ 2 ^ order := dvd_refl _
  have hd0 : p.x / 2 ^ order = 0 := Nat.div_eq_of_lt hx
  have hd0y : p.y / 2 ^ order = 0 := Nat.div_eq_of_lt hy
  rw [v2pStep_arith, h2N]
  interval_cases w
  · -- w = 0 : rx = 0, ry = 0; quadrant swap, no offset
    rw [show (0:Nat) / 2 % 2 = 0 from rfl, show (0:Nat) % 2 ^^^ 0 = 0 from rfl,
      rotate_swap p ⟨0, 0⟩ (2 ^ order) rfl (by norm_num)]
    simp only [Nat.mul_zero, Nat.add_zero]
    rw [p2vLoop_succ]
    dsimp only
    rw [bitD, bitD, hd0, hd0y, show (0:Nat) % 2 = 0 from rfl,
      rotate_swap ⟨p.y, p.x⟩ ⟨0, 0⟩ (2 * 2 ^ order) rfl (by norm_num),
      show (3 * 0 : Nat) ^^^ 0 = 0 from rfl]
    dsimp only
    have hcong : p2vLoop (2 * 2 ^ order) order ⟨p.x, p.y⟩ =
        p2vLoop (2 ^ order) order p :=
      p2vLoop_congr order (2 * 2 ^ order) (2 ^ order) ⟨p.x, p.y⟩ p hdvd2 hdvd1
        (by dsimp only; omega) (by dsimp only; omega) hx hy rfl rfl
    rw [hcong]
    simp only [Nat.mul_zero, Nat.zero_add]
  · -- w = 1 : rx = 0, ry = 1; identity rotation, y offset
    rw [show (1:Nat) / 2 % 2 = 0 from rfl, show (1:Nat) % 2 ^^^ 0 = 1 from rfl,
      rotate_id p ⟨0, 1⟩ (2 ^ order) (by norm_num)]
    simp only [Nat.mul_zero, Nat.mul_one, Nat.add_zero]
    rw [p2vLoop_succ]
    dsimp only
    rw [bitD, bitD, hd0, Nat.add_div_right _ hN, hd0y,
      show (0:Nat) % 2 = 0 from rfl, show (0 + 1 : Nat) % 2 = 1 from rfl,
      rotate_id ⟨p.x, p.y + 2 ^ order⟩ ⟨0, 1⟩ (2 * 2 ^ order) (by norm_num),
      show (3 * 0 : Nat) ^^^ 1 = 1 from rfl]
    have hcong : p2vLoop (2 * 2 ^ order) order ⟨p.x, p.y + 2 ^ order⟩ =
        p2vLoop (2 ^ order) order p :=
      p2vLoop_congr order (2 * 2 ^ order) (2 ^ order) ⟨p.x, p.y + 2 ^ order⟩ p
        hdvd2 hdvd1 (by dsimp only; omega) (by dsimp only; omega) hx hy
        rfl (by dsimp only; rw [Nat.add_mod_right])
    rw [hcong, h44]
    ring
  · -- w = 2 : rx = 1, ry = 1; identity rotation, both offsets
    rw [show (2:Nat) / 2 % 2 = 1 from rfl, show (2:Nat) % 2 ^^^ 1 = 1 from rfl,
      rotate_id p ⟨1, 1⟩ (2 ^ order) (by norm_num)]
    simp only [Nat.mul_one]
    rw [p2vLoop_succ]
    dsimp only
    rw [bitD, bitD, Nat.add_div_right _ hN, Nat.add_div_right _ hN, hd0, hd0y,
      show (0 + 1 : Nat) % 2 = 1 from rfl,
      rotate_id ⟨p.x + 2 ^ order, p.y + 2 ^ order⟩ ⟨1, 1⟩ (2 * 2 ^ order) (by norm_num),
      show (3 * 1 : Nat) ^^^ 1 = 2 from rfl]
    have hcong : p2vLoop (2 * 2 ^ order) order ⟨p.x + 2 ^ order, p.y + 2 ^ order⟩ =
        p2vLoop (2 ^ order) order p :=
      p2vLoop_congr order (2 * 2 ^ order) (2 ^ order) ⟨p.x + 2 ^ order, p.y + 2 ^ order⟩ p
        hdvd2 hdvd1 (by dsimp only; omega) (by dsimp only; omega) hx hy
        (by dsimp only; rw [Nat.add_mod_right]) (by dsimp only; rw [Nat.add_mod_right])
    rw [hcong, h44]
  · -- w = 3 : rx = 1, ry = 0; reflection + swap, x offset
    rw [show (3:Nat) / 2 % 2 = 1 from rfl, show (3:Nat) % 2 ^^^ 1 = 0 from rfl,
      rotate_reflect p ⟨1, 0⟩ (2 ^ order) rfl rfl]
    dsimp only
    simp only [Nat.mul_one, Nat.mul_zero, Nat.add_zero]
    rw [p2vLoop_succ]
    dsimp only
    rw [bitD, bitD, Nat.add_div_right _ hN,
      Nat.div_eq_of_lt (show 2 ^ order - 1 - p.y < 2 ^ order by omega),
      Nat.div_eq_of_lt (show 2 ^ order - 1 - p.x < 2 ^ order by omega),
      show (0 + 1 : Nat) % 2 = 1 from rfl, show (0:Nat) % 2 = 0 from rfl,
      rotate_reflect ⟨2 ^ order - 1 - p.y + 2 ^ order, 2 ^ order - 1 - p.x⟩ ⟨1, 0⟩
        (2 * 2 ^ order) rfl rfl,
      show (3 * 1 : Nat) ^^^ 0 = 3 from rfl]
    dsimp only
    have hxc : 2 * 2 ^ order - 1 - (2 ^ order - 1 - p.x) = 2 ^ order + p.x := by omega
    have hyc : 2 * 2 ^ order - 1 - (2 ^ order - 1 - p.y + 2 ^ order) = p.y := by omega
    rw [hxc, hyc]
    have hcong : p2vLoop (2 * 2 ^ order) order ⟨2 ^ order + p.x, p.y⟩ =
        p2vLoop (2 ^ order) order p :=
      p2vLoop_congr order (2 * 2 ^ order) (2 ^ order) ⟨2 ^ order + p.x, p.y⟩ p
        hdvd2 hdvd1 (by dsimp only; omega) (by dsimp only; omega) hx hy
        (by dsimp only; rw [Nat.add_mod_left]) rfl
    rw [hcong, h44]

theorem hilbert_roundtrip_aux (order : Nat) : ∀ value, value < 4 ^ order →
    p2vLoop (2 ^ order) order (v2pLoop 0 order value ⟨0, 0⟩) = value := by
  induction order with
  | zero =>
    intro value hv
    have hv0 : value = 0 := by
      have : value < 1 := by simpa using hv
      omega
    subst hv0
    rfl
  | succ order ih =>
    intro value hv
    rw [v2pLoop_last order 0 value ⟨0, 0⟩,
      show 0 + order = order from Nat.zero_add order]
    have hp := v2pLoop_lt order 0 value ⟨0, 0⟩ (by norm_num) (by norm_num)
    rw [show 0 + order = order from Nat.zero_add order] at hp
    have h4pos : 0 < (4:Nat) ^ order := pow_pos (by norm_num) order
    have hwlt : value / 4 ^ order < 4 := by
      rw [Nat.div_lt_iff_lt_mul h4pos]
      calc value < 4 ^ (order + 1) := hv
        _ = 4 * 4 ^ order := by rw [pow_succ]; ring
    have hinner : p2vLoop (2 ^ order) order (v2pLoop 0 order value ⟨0, 0⟩) =
        value % 4 ^ order := by
      rw [v2pLoop_mod order 0 value ⟨0, 0⟩]
      exact ih (value % 4 ^ order) (Nat.mod_lt _ h4pos)
    rw [roundtrip_step order (v2pLoop 0 order value ⟨0, 0⟩) (value / 4 ^ order)
      hp.1 hp.2 hwlt, hinner]
    exact Nat.div_add_mod value (4 ^ order)

/-- C1: for every `order ≥ 0` and every `index` in `[0, 2^(2*order))`,
applying `value_to_point` and then `point_to_value` returns the original
index — the two Hilbert curve transforms are exact inverses. -/
theorem point_to_value_value_to_point (order value : Nat)
    (h : value < 2 ^ (2 * order)) :
    (HilbertCurve.mk order).point_to_value
      ((HilbertCurve.mk order).value_to_point value) = value := by
  have h4 : (2:Nat) ^ (2 * order) = 4 ^ order := by
    rw [pow_mul]
    norm_num
  exact hilbert_roundtrip_aux order value (by rw [← h4]; exact h)

theorem point_to_value_value_to_point_witness :
    7 < 2 ^ (2 * 2) ∧
      (HilbertCurve.mk 2).point_to_value ((HilbertCurve.mk 2).value_to_point 7) = 7 :=
  ⟨by norm_num, point_to_value_value_to_point 2 7 (by norm_num)⟩

/-! ## Remapping machinery (hilbertify / unhilbertify) -/

theorem getD_set_self (l : List Color) (i : Nat) (v d : Color) (h : i < l.length) :
    (l.set i v).getD i d = v := by
  rw [List.getD_eq_getElem _ _ (by simpa using h)]
  exact List.getElem_set_self _

theorem getD_set_ne (l : List Color) (i j : Nat) (v d : Color) (hne : i ≠ j) :
    (l.set i v).getD j d = l.getD j d := by
  rw [List.getD_eq_getElem?_getD, List.getD_eq_getElem?_getD, List.getElem?_set_ne hne]

theorem remapWrites_length (data : List Color) (f : Nat → Nat) :
    ∀ (n : Nat) (out : List Color), (remapWrites data f n out).length = out.length := by
  intro n
  induction n with
  | zero => intro out; rfl
  | succ n ih =>
    intro out
    show ((remapWrites data f n out).set (f n) (data.getD n ⟨0, 0, 0⟩)).length = out.length
    rw [List.length_set]
    exact ih out

theorem remapWrites_getD (data : List Color) (f : Nat → Nat) (out : List Color) :
    ∀ (n i : Nat), i < n → f i < out.length →
      (∀ j, j < n → f j = f i → j = i) →
      (remapWrites data f n out).getD (f i) ⟨0, 0, 0⟩ = data.getD i ⟨0, 0, 0⟩ := by
  intro n
  induction n with
  | zero => intro i hi; omega
  | succ n ih =>
    intro i hi hfi hinj
    show ((remapWrites data f n out).set (f n) (data.getD n ⟨0, 0, 0⟩)).getD (f i)
      ⟨0, 0, 0⟩ = data.getD i ⟨0, 0, 0⟩
    by_cases hin : i = n
    · subst hin
      apply getD_set_self
      rw [remapWrites_length]
      exact hfi
    · have hne : f n ≠ f i := fun he => hin (hinj n (by omega) he).symm
      rw [getD_set_ne _ _ _ _ _ hne]
      exact ih i (by omega) hfi (fun j hj hfj => hinj j (by omega) hfj)

/-- The index permutation `hilbertify` applies on a `2^order` square grid
(src/main.rs:187-192). -/
def hilbertMap (order i : Nat) : Nat :=
  (HilbertCurve.mk order).point_to_value (Image.index_to_pos_assoc (2 ^ order) i)

/-- The index permutation `unhilbertify` applies on a `2^order` square grid
(src/main.rs:172-177). -/
def unhilbertMap (order i : Nat) : Nat :=
  Image.to_index_assoc (2 ^ order) ((HilbertCurve.mk order).value_to_point i)

theorem value_to_point_lt (order value : Nat) :
    ((HilbertCurve.mk order).value_to_point value).x < 2 ^ order ∧
      ((HilbertCurve.mk order).value_to_point value).y < 2 ^ order := by
  have h := v2pLoop_lt order 0 value ⟨0, 0⟩ (by norm_num) (by norm_num)
  rw [show 0 + order = order from Nat.zero_add order] at h
  exact h

theorem index_pos_roundtrip (width : Nat) (pos : Pos2) (hx : pos.x < width) :
    Image.index_to_pos_assoc width (Image.to_index_assoc width pos) = pos := by
  unfold Image.index_to_pos_assoc Image.to_index_assoc
  have hw : 0 < width := by omega
  rw [Nat.mul_comm pos.y width, Nat.mul_add_mod, Nat.mod_eq_of_lt hx,
    Nat.mul_add_div hw, Nat.div_eq_of_lt hx, Nat.add_zero]

theorem pow_two_mul_self (order : Nat) :
    (4:Nat) ^ order = 2 ^ order * 2 ^ order := by
  rw [show (4:Nat) = 2 * 2 from rfl, mul_pow]

theorem hilbertMap_unhilbertMap (order i : Nat) (hi : i < 2 ^ order * 2 ^ order) :
    hilbertMap order (unhilbertMap order i) = i := by
  unfold hilbertMap unhilbertMap
  rw [index_pos_roundtrip (2 ^ order) _ (value_to_point_lt order i).1]
  exact hilbert_roundtrip_aux order i (by rw [pow_two_mul_self]; exact hi)

theorem unhilbertMap_lt (order i : Nat) :
    unhilbertMap order i < 2 ^ order * 2 ^ order := by
  unfold unhilbertMap Image.to_index_assoc
  obtain ⟨hx, hy⟩ := value_to_point_lt order i
  have h1 : (((HilbertCurve.mk order).value_to_point i).y + 1) * 2 ^ order ≤
      2 ^ order * 2 ^ order := Nat.mul_le_mul_right _ hy
  have h2 : (((HilbertCurve.mk order).value_to_point i).y + 1) * 2 ^ order =
      ((HilbertCurve.mk order).value_to_point i).y * 2 ^ order + 2 ^ order := by ring
  omega

theorem hilbertMap_lt (order i : Nat) :
    hilbertMap order i < 2 ^ order * 2 ^ order := by
  rw [← pow_two_mul_self]
  exact p2vLoop_lt order (2 ^ order) _

theorem unhilbertMap_injOn (order i j : Nat) (hi : i < 2 ^ order * 2 ^ order)
    (hj : j < 2 ^ order * 2 ^ order)
    (he : unhilbertMap order i = unhilbertMap order j) : i = j := by
  rw [← hilbertMap_unhilbertMap order i hi, ← hilbertMap_unhilbertMap order j hj, he]

theorem unhilbertMap_surjOn (order j : Nat) (hj : j < 2 ^ order * 2 ^ order) :
    ∃ i, i < 2 ^ order * 2 ^ order ∧ unhilbertMap order i = j := by
  let M := 2 ^ order * 2 ^ order
  let U : Fin M → Fin M := fun i => ⟨unhilbertMap order i.1, unhilbertMap_lt order i.1⟩
  have hUinj : Function.Injective U :=
    fun a b hab => Fin.ext (unhilbertMap_injOn order a.1 b.1 a.2 b.2
      (congrArg Fin.val hab))
  have hUsurj : Function.Surjective U := Finite.injective_iff_surjective.mp hUinj
  obtain ⟨i, hi⟩ := hUsurj ⟨j, hj⟩
  exact ⟨i.1, i.2, congrArg Fin.val hi⟩

theorem hilbertMap_injOn (order i j : Nat) (hi : i < 2 ^ order * 2 ^ order)
    (hj : j < 2 ^ order * 2 ^ order)
    (he : hilbertMap order i = hilbertMap order j) : i = j := by
  let M := 2 ^ order * 2 ^ order
  let U : Fin M → Fin M := fun i => ⟨unhilbertMap order i.1, unhilbertMap_lt order i.1⟩
  let H : Fin M → Fin M := fun i => ⟨hilbertMap order i.1, hilbertMap_lt order i.1⟩
  have hHsurj : Function.Surjective H := by
    intro x
    exact ⟨U x, Fin.ext (hilbertMap_unhilbertMap order x.1 x.2)⟩
  have hHinj : Function.Injective H := Finite.injective_iff_surjective.mpr hHsurj
  have heq : H ⟨i, hi⟩ = H ⟨j, hj⟩ := Fin.ext he
  exact congrArg Fin.val (hHinj heq)

theorem hilbertify_eq (order : Nat) (img : Image) (hw : img.width = 2 ^ order)
    (hh : img.height = 2 ^ order) :
    img.hilbertify = .ok (img.remap_positions (hilbertMap order)) := by
  unfold Image.hilbertify
  rw [if_neg (show ¬ img.width ≠ img.height by omega), hw,
    hilbertCurve_new_two_pow order]
  rfl

theorem unhilbertify_eq (order : Nat) (img : Image) (hw : img.width = 2 ^ order)
    (hh : img.height = 2 ^ order) :
    img.unhilbertify = .ok (img.remap_positions (unhilbertMap order)) := by
  unfold Image.unhilbertify
  rw [if_neg (show ¬ img.width ≠ img.height by omega), hw,
    hilbertCurve_new_two_pow order]
  rfl

theorem remap_positions_getD (img : Image) (f : Nat → Nat)
    (hlt : ∀ i, i < img.data.length → f i < img.data.length)
    (hinj : ∀ i j, i < img.data.length → j < img.data.length → f i = f j → i = j)
    (i : Nat) (hi : i < img.data.length) :
    (img.remap_positions f).data.getD (f i) ⟨0, 0, 0⟩ =
      img.data.getD i ⟨0, 0, 0⟩ :=
  remapWrites_getD img.data f img.data img.data.length i hi (hlt i hi)
    (fun j hj hfj => hinj j i hj hi hfj)

/-- C7: on a square power-of-two grid, `hilbertify` succeeds and produces
a same-sized buffer in which the value originally at linear index `i`
sits at position `point_to_value (index_to_pos i)`, for every `i`. -/
theorem hilbertify_moves_indices (order : Nat) (img : Image)
    (hw : img.width = 2 ^ order) (hh : img.height = 2 ^ order)
    (hl : img.data.length = img.width * img.height) :
    ∃ img2, img.hilbertify = .ok img2 ∧
      img2.width = img.width ∧ img2.height = img.height ∧
      img2.data.length = img.data.length ∧
      ∀ i, i < img.data.length →
        img2.data.getD ((HilbertCurve.mk order).point_to_value
            (Image.index_to_pos_assoc img.width i)) ⟨0, 0, 0⟩ =
          img.data.getD i ⟨0, 0, 0⟩ := by
  have hM : img.data.length = 2 ^ order * 2 ^ order := by rw [hl, hw, hh]
  refine ⟨img.remap_positions (hilbertMap order), hilbertify_eq order img hw hh,
    rfl, rfl, remapWrites_length _ _ _ _, ?_⟩
  intro i hi
  have h1 : (HilbertCurve.mk order).point_to_value
      (Image.index_to_pos_assoc img.width i) = hilbertMap order i := by
    rw [hw]; rfl
  rw [h1]
  exact remap_positions_getD img (hilbertMap order)
    (fun i hi => by rw [hM] at hi ⊢; exact hilbertMap_lt order i)
    (fun i j hi hj he => by
      rw [hM] at hi hj
      exact hilbertMap_injOn order i j hi hj he)
    i hi

theorem hilbertify_moves_indices_witness :
    (Image.mk [⟨1, 1, 1⟩, ⟨2, 2, 2⟩, ⟨3, 3, 3⟩, ⟨4, 4, 4⟩] 2 2).width = 2 ^ 1 ∧
      (Image.mk [⟨1, 1, 1⟩, ⟨2, 2, 2⟩, ⟨3, 3, 3⟩, ⟨4, 4, 4⟩] 2 2).height = 2 ^ 1 ∧
      (Image.mk [⟨1, 1, 1⟩, ⟨2, 2, 2⟩, ⟨3, 3, 3⟩, ⟨4, 4, 4⟩] 2 2).data.length =
        (Image.mk [⟨1, 1, 1⟩, ⟨2, 2, 2⟩, ⟨3, 3, 3⟩, ⟨4, 4, 4⟩] 2 2).width *
          (Image.mk [⟨1, 1, 1⟩, ⟨2, 2, 2⟩, ⟨3, 3, 3⟩, ⟨4, 4, 4⟩] 2 2).height ∧
      (∃ img2,
        (Image.mk [⟨1, 1, 1⟩, ⟨2, 2, 2⟩, ⟨3, 3, 3⟩, ⟨4, 4, 4⟩] 2 2).hilbertify = .ok img2 ∧
        img2.width = (Image.mk [⟨1, 1, 1⟩, ⟨2, 2, 2⟩, ⟨3, 3, 3⟩, ⟨4, 4, 4⟩] 2 2).width ∧
        img2.height = (Image.mk [⟨1, 1, 1⟩, ⟨2, 2, 2⟩, ⟨3, 3, 3⟩, ⟨4, 4, 4⟩] 2 2).height ∧
        img2.data.length = (Image.mk [⟨1, 1, 1⟩, ⟨2, 2, 2⟩, ⟨3, 3, 3⟩, ⟨4, 4, 4⟩] 2 2).data.length ∧
        ∀ i, i < (Image.mk [⟨1, 1, 1⟩, ⟨2, 2, 2⟩, ⟨3, 3, 3⟩, ⟨4, 4, 4⟩] 2 2).data.length →
          img2.data.getD ((HilbertCurve.mk 1).point_to_value
              (Image.index_to_pos_assoc
                (Image.mk [⟨1, 1, 1⟩, ⟨2, 2, 2⟩, ⟨3, 3, 3⟩, ⟨4, 4, 4⟩] 2 2).width i)) ⟨0, 0, 0⟩ =
            (Image.mk [⟨1, 1, 1⟩, ⟨2, 2, 2⟩, ⟨3, 3, 3⟩, ⟨4, 4, 4⟩] 2 2).data.getD i ⟨0, 0, 0⟩) :=
  ⟨by norm_num, by norm_num, by norm_num,
    hilbertify_moves_indices 1 (Image.mk [⟨1, 1, 1⟩, ⟨2, 2, 2⟩, ⟨3, 3, 3⟩, ⟨4, 4, 4⟩] 2 2)
      (by norm_num) (by norm_num) (by norm_num)⟩

/-- C2: for every square grid whose side is a power of two, `hilbertify`
followed by `unhilbertify` returns a grid whose pixel buffer equals the
original element-wise (here: the whole image is recovered). -/
theorem unhilbertify_hilbertify_roundtrip (order : Nat) (img : Image)
    (hw : img.width = 2 ^ order) (hh : img.height = 2 ^ order)
    (hl : img.data.length = img.width * img.height) :
    ∃ mid, img.hilbertify = .ok mid ∧ mid.unhilbertify = .ok img := by
  have hM : img.data.length = 2 ^ order * 2 ^ order := by rw [hl, hw, hh]
  refine ⟨img.remap_positions (hilbertMap order), hilbertify_eq order img hw hh, ?_⟩
  have hmw : (img.remap_positions (hilbertMap order)).width = 2 ^ order := hw
  have hmh : (img.remap_positions (hilbertMap order)).height = 2 ^ order := hh
  rw [unhilbertify_eq order _ hmw hmh]
  congr 1
  have hmidlen : (img.remap_positions (hilbertMap order)).data.length =
      img.data.length := remapWrites_length _ _ _ _
  have hfinlen : ((img.remap_positions (hilbertMap order)).remap_positions
      (unhilbertMap order)).data.length = img.data.length := by
    rw [show ((img.remap_positions (hilbertMap order)).remap_positions
        (unhilbertMap order)).data.length =
        (img.remap_positions (hilbertMap order)).data.length from
      remapWrites_length _ _ _ _, hmidlen]
  have hdata : ((img.remap_positions (hilbertMap order)).remap_positions
      (unhilbertMap order)).data = img.data := by
    apply List.ext_getElem (by rw [hfinlen])
    intro j h1 h2
    rw [← List.getD_eq_getElem _ ⟨0, 0, 0⟩ h1, ← List.getD_eq_getElem _ ⟨0, 0, 0⟩ h2]
    have hjM : j < 2 ^ order * 2 ^ order := by rw [← hM]; exact h2
    obtain ⟨i, hiM, hui⟩ := unhilbertMap_surjOn order j hjM
    have hiLen : i < (img.remap_positions (hilbertMap order)).data.length := by
      rw [hmidlen, hM]; exact hiM
    have e1 : ((img.remap_positions (hilbertMap order)).remap_positions
        (unhilbertMap order)).data.getD (unhilbertMap order i) ⟨0, 0, 0⟩ =
        (img.remap_positions (hilbertMap order)).data.getD i ⟨0, 0, 0⟩ :=
      remap_positions_getD (img.remap_positions (hilbertMap order))
        (unhilbertMap order)
        (fun a ha => by rw [hmidlen, hM] at ha ⊢; exact unhilbertMap_lt order a)
        (fun a b ha hb he => by
          rw [hmidlen, hM] at ha hb
          exact unhilbertMap_injOn order a b ha hb he)
        i hiLen
    have e2 : (img.remap_positions (hilbertMap order)).data.getD
        (hilbertMap order (unhilbertMap order i)) ⟨0, 0, 0⟩ =
        img.data.getD (unhilbertMap order i) ⟨0, 0, 0⟩ :=
      remap_positions_getD img (hilbertMap order)
        (fun a ha => by rw [hM] at ha ⊢; exact hilbertMap_lt order a)
        (fun a b ha hb he => by
          rw [hM] at ha hb
          exact hilbertMap_injOn order a b ha hb he)
        (unhilbertMap order i) (by rw [hM]; exact unhilbertMap_lt order i)
    rw [hilbertMap_unhilbertMap order i hiM] at e2
    rw [← hui, e1, e2]
  calc (img.remap_positions (hilbertMap order)).remap_positions (unhilbertMap order)
      = ⟨((img.remap_positions (hilbertMap order)).remap_positions
          (unhilbertMap order)).data, img.width, img.height⟩ := rfl
    _ = ⟨img.data, img.width, img.height⟩ := by rw [hdata]
    _ = img := rfl

theorem unhilbertify_hilbertify_roundtrip_witness :
    (Image.mk [⟨1, 1, 1⟩, ⟨2, 2, 2⟩, ⟨3, 3, 3⟩, ⟨4, 4, 4⟩] 2 2).width = 2 ^ 1 ∧
      (Image.mk [⟨1, 1, 1⟩, ⟨2, 2, 2⟩, ⟨3, 3, 3⟩, ⟨4, 4, 4⟩] 2 2).height = 2 ^ 1 ∧
      (Image.mk [⟨1, 1, 1⟩, ⟨2, 2, 2⟩, ⟨3, 3, 3⟩, ⟨4, 4, 4⟩] 2 2).data.length =
        (Image.mk [⟨1, 1, 1⟩, ⟨2, 2, 2⟩, ⟨3, 3, 3⟩, ⟨4, 4, 4⟩] 2 2).width *
          (Image.mk [⟨1, 1, 1⟩, ⟨2, 2, 2⟩, ⟨3, 3, 3⟩, ⟨4, 4, 4⟩] 2 2).height ∧
      (∃ mid, (Image.mk [⟨1, 1, 1⟩, ⟨2, 2, 2⟩, ⟨3, 3, 3⟩, ⟨4, 4, 4⟩] 2 2).hilbertify =
          .ok mid ∧
        mid.unhilbertify = .ok (Image.mk [⟨1, 1, 1⟩, ⟨2, 2, 2⟩, ⟨3, 3, 3⟩, ⟨4, 4, 4⟩] 2 2)) :=
  ⟨by norm_num, by norm_num, by norm_num,
    unhilbertify_hilbertify_roundtrip 1
      (Image.mk [⟨1, 1, 1⟩, ⟨2, 2, 2⟩, ⟨3, 3, 3⟩, ⟨4, 4, 4⟩] 2 2)
      (by norm_num) (by norm_num) (by norm_num)⟩

/-! ## Serialization (C9) -/

theorem save_length (img : Image) : img.save.length = 3 * img.data.length := by
  show ((img.data.map fun c => [c.r, c.g, c.b]).flatten).length = 3 * img.data.length
  induction img.data with
  | nil => rfl
  | cons c t ih =>
    rw [List.map_cons, List.flatten_cons, List.length_append, ih, List.length_cons]
    show 3 + 3 * t.length = 3 * (t.length + 1)
    ring

theorem save_getD (l : List Color) : ∀ j, j < l.length →
    ((l.map fun c => [c.r, c.g, c.b]).flatten).getD (3 * j) 0 = (l.getD j ⟨0, 0, 0⟩).r ∧
    ((l.map fun c => [c.r, c.g, c.b]).flatten).getD (3 * j + 1) 0 = (l.getD j ⟨0, 0, 0⟩).g ∧
    ((l.map fun c => [c.r, c.g, c.b]).flatten).getD (3 * j + 2) 0 = (l.getD j ⟨0, 0, 0⟩).b := by
  induction l with
  | nil => intro j hj; simp at hj
  | cons c t ih =>
    intro j hj
    cases j with
    | zero => exact ⟨rfl, rfl, rfl⟩
    | succ j =>
      have h3 : 3 * (j + 1) = 3 * j + 1 + 1 + 1 := by ring
      rw [h3]
      show (c.r :: c.g :: c.b :: (t.map fun c => [c.r, c.g, c.b]).flatten).getD
          (3 * j + 1 + 1 + 1) 0 = (t.getD j ⟨0, 0, 0⟩).r ∧ _ ∧ _
      rw [List.getD_cons_succ, List.getD_cons_succ, List.getD_cons_succ]
      have hrec := ih j (by simpa using Nat.lt_of_succ_lt_succ hj)
      refine ⟨hrec.1, ?_, ?_⟩
      · show (c.r :: c.g :: c.b :: (t.map fun c => [c.r, c.g, c.b]).flatten).getD
          (3 * j + 1 + 1 + 1 + 1) 0 = (t.getD j ⟨0, 0, 0⟩).g
        rw [List.getD_cons_succ, List.getD_cons_succ, List.getD_cons_succ]
        exact hrec.2.1
      · show (c.r :: c.g :: c.b :: (t.map fun c => [c.r, c.g, c.b]).flatten).getD
          (3 * j + 1 + 1 + 1 + 2) 0 = (t.getD j ⟨0, 0, 0⟩).b
        rw [show 3 * j + 1 + 1 + 1 + 2 = (3 * j + 2) + 1 + 1 + 1 from by ring,
          List.getD_cons_succ, List.getD_cons_succ, List.getD_cons_succ]
        exact hrec.2.2

/-- C9: when an output path is given, the program hilbertifies and saves;
the written byte list is exactly `width*height*3` bytes, each pixel of
the permuted grid contributing its three channels in order, with no
header or metadata. -/
theorem resave_output (order : Nat) (img : Image)
    (hw : img.width = 2 ^ order) (hh : img.height = 2 ^ order)
    (hl : img.data.length = img.width * img.height) :
    ∃ img2, img.hilbertify = .ok img2 ∧ resave img = .ok img2.save ∧
      img2.save.length = img.width * img.height * 3 ∧
      ∀ j, j < img2.data.length →
        img2.save.getD (3 * j) 0 = (img2.data.getD j ⟨0, 0, 0⟩).r ∧
        img2.save.getD (3 * j + 1) 0 = (img2.data.getD j ⟨0, 0, 0⟩).g ∧
        img2.save.getD (3 * j + 2) 0 = (img2.data.getD j ⟨0, 0, 0⟩).b := by
  refine ⟨img.remap_positions (hilbertMap order), hilbertify_eq order img hw hh,
    ?_, ?_, ?_⟩
  · unfold resave
    rw [hilbertify_eq order img hw hh]
  · rw [save_length]
    have hlen : (img.remap_positions (hilbertMap order)).data.length =
        img.data.length := remapWrites_length _ _ _ _
    rw [hlen, hl]
    ring
  · intro j hj
    exact save_getD (img.remap_positions (hilbertMap order)).data j hj

theorem resave_output_witness :
    (Image.mk [⟨1, 2, 3⟩, ⟨4, 5, 6⟩, ⟨7, 8, 9⟩, ⟨10, 11, 12⟩] 2 2).width = 2 ^ 1 ∧
      (Image.mk [⟨1, 2, 3⟩, ⟨4, 5, 6⟩, ⟨7, 8, 9⟩, ⟨10, 11, 12⟩] 2 2).height = 2 ^ 1 ∧
      (Image.mk [⟨1, 2, 3⟩, ⟨4, 5, 6⟩, ⟨7, 8, 9⟩, ⟨10, 11, 12⟩] 2 2).data.length =
        (Image.mk [⟨1, 2, 3⟩, ⟨4, 5, 6⟩, ⟨7, 8, 9⟩, ⟨10, 11, 12⟩] 2 2).width *
          (Image.mk [⟨1, 2, 3⟩, ⟨4, 5, 6⟩, ⟨7, 8, 9⟩, ⟨10, 11, 12⟩] 2 2).height ∧
      (∃ img2,
        (Image.mk [⟨1, 2, 3⟩, ⟨4, 5, 6⟩, ⟨7, 8, 9⟩, ⟨10, 11, 12⟩] 2 2).hilbertify =
          .ok img2 ∧
        resave (Image.mk [⟨1, 2, 3⟩, ⟨4, 5, 6⟩, ⟨7, 8, 9⟩, ⟨10, 11, 12⟩] 2 2) =
          .ok img2.save ∧
        img2.save.length =
          (Image.mk [⟨1, 2, 3⟩, ⟨4, 5, 6⟩, ⟨7, 8, 9⟩, ⟨10, 11, 12⟩] 2 2).width *
            (Image.mk [⟨1, 2, 3⟩, ⟨4, 5, 6⟩, ⟨7, 8, 9⟩, ⟨10, 11, 12⟩] 2 2).height * 3 ∧
        ∀ j, j < img2.data.length →
          img2.save.getD (3 * j) 0 = (img2.data.getD j ⟨0, 0, 0⟩).r ∧
          img2.save.getD (3 * j + 1) 0 = (img2.data.getD j ⟨0, 0, 0⟩).g ∧
          img2.save.getD (3 * j + 2) 0 = (img2.data.getD j ⟨0, 0, 0⟩).b) :=
  ⟨by norm_num, by norm_num, by norm_num,
    resave_output 1 (Image.mk [⟨1, 2, 3⟩, ⟨4, 5, 6⟩, ⟨7, 8, 9⟩, ⟨10, 11, 12⟩] 2 2)
      (by norm_num) (by norm_num) (by norm_num)⟩
